import Mathlib

/-!
Verification of the recall / rank-fusion core of the search engine in
`hub/search.py` (Search v2).  The Python functions are shallowly embedded:

* floating-point arithmetic is modelled over `ℚ` (and over `ℝ` where the
  code calls `math.sqrt`);
* SQL / JSON values that the code only ever observes through numeric
  coercions are modelled by the inductive `DBVal`;
* fallible operations (the embedding-provider call) return `Except`.

Definitions are translated from the source; each carries a note saying
which lines of `hub/search.py` it embeds.
-/

/-- Model of a stored scalar (SQLite column value or JSON metadata field)
as the code observes it through numeric coercion.  `null` is SQL NULL /
absent JSON key / Python `None`; `real q` is a stored numeric value (or a
string that parses strictly, carried separately by `text`); `text py sqlv`
is a stored text value, where `py` is the result of Python `float(s)`
(`none` when `float` raises `ValueError`) and `sqlv` is the value of
SQLite `CAST(s AS REAL)` (the longest numeric prefix of `s`, `0` when
there is none).  A strictly parseable text satisfies `py = some sqlv`. -/
inductive DBVal where
  | null : DBVal
  | real (q : ℚ) : DBVal
  | text (py : Option ℚ) (sqlv : ℚ) : DBVal
deriving DecidableEq

/-- Python `float(v)` wrapped in try/except, as used at `search.py:174`
and `search.py:262`: `None` and unparseable text give `none`. -/
def pyFloatOpt : DBVal → Option ℚ
  | DBVal.null => none
  | DBVal.real q => some q
  | DBVal.text py _ => py

/-- SQLite `CAST(v AS REAL)` as used in the WHERE clauses of
`fts_search` (`search.py:142,146`): NULL stays NULL (and any comparison
with it is not satisfied); text casts to its longest numeric prefix,
`0.0` when it has none. -/
def sqliteCastReal : DBVal → Option ℚ
  | DBVal.null => none
  | DBVal.real q => some q
  | DBVal.text _ sqlv => some sqlv

/-- Computable floor of a rational, `⌊x⌋` (`Rat.floor_def`). -/
def qfloor (x : ℚ) : ℤ := x.num / x.den

/-- Round a rational to the nearest integer, ties to the even integer:
the semantics of Python's built-in `round` on a (exactly represented)
value. -/
def roundHalfEven (x : ℚ) : ℤ :=
  if x - qfloor x < 1/2 then qfloor x
  else if 1/2 < x - qfloor x then qfloor x + 1
  else if 2 ∣ qfloor x then qfloor x else qfloor x + 1

/-- Python `round(x, 4)` on a rational model of a float, as used at
`search.py:193,223,238`. -/
def round4 (x : ℚ) : ℚ := (roundHalfEven (x * 10000) : ℚ) / 10000

/-- One entry of the `project_tags.json` rule set (`search.py:72-79`):
`tag` is `proj.get('tag')` (possibly absent), `patterns` the pattern
list. -/
structure Project where
  tag : Option String
  patterns : List String
deriving DecidableEq

/-- Boolean test that `needle` starts `hay` (on character lists). -/
def startsWithSeq : List Char → List Char → Bool
  | [], _ => true
  | _ :: _, [] => false
  | a :: as, b :: bs => a == b && startsWithSeq as bs

/-- Python `needle in hay` substring test, on character lists. -/
def containsSeq (needle : List Char) : List Char → Bool
  | [] => startsWithSeq needle []
  | h :: t => startsWithSeq needle (h :: t) || containsSeq needle t

/-- `_detect_projects` (`search.py:82-92`): lower-case the text, then for
each rule in order append its tag (when present, non-empty and not
already collected) as soon as one non-empty pattern occurs in the
text. -/
def detectProjects (rules : List Project) (text : String) : List String :=
  let low := text.toLower.data
  rules.foldl
    (fun tags proj =>
      if proj.patterns.any (fun pat => pat ≠ "" && containsSeq pat.toLower.data low) then
        match proj.tag with
        | some t => if t ≠ "" && !(tags.contains t) then tags ++ [t] else tags
        | none => tags
      else tags)
    []

/-- The FTS match argument built at `search.py:134`:
`'"%s"' % query.replace('"', '') if ' ' in query else query`.  The space
test is Python `' ' in query` (character membership) and the quote
stripping `query.replace('"', '')` (drop every `'"'`). -/
def matchArg (q : String) : String :=
  if q.data.contains ' ' then
    String.mk ('"' :: (q.data.filter (fun c => !(c == '"')) ++ ['"']))
  else q

/-- A row returned by the `messages_fts` query in `fts_search`
(`search.py:127-128`): message id, conversation id, author role,
created_at, snippet, bm25 value. -/
structure FtsRow where
  message_id : String
  conversation_id : Option String
  author_role : Option String
  created_at : DBVal
  snip : String
  bm25 : ℚ
deriving DecidableEq

/-- One output dict of `semantic_search` (`search.py:192-199`). -/
structure SemItem where
  score : ℚ
  id : String
  conversation_id : Option String
  author_role : Option String
  created_at : DBVal
  text : String
deriving DecidableEq

/-- A stored vector-store document: one row of
`SELECT v.id, v.v, d.meta_json, d.text FROM vecs v JOIN docs d`
(`search.py:159-161`), with the float32 blob already unpacked to a
rational vector (`unpack_f32`, `search.py:106-108`) and the metadata
JSON parsed into its three used fields. -/
structure SemDoc where
  id : String
  vec : List ℚ
  conversation_id : Option String
  author_role : Option String
  created_at : DBVal
  text : String

/-- A value of the `merged` dict in `_merge_results`
(`search.py:218-227,247-256`). -/
structure MergedHit where
  id : String
  conversation_id : Option String
  author_role : Option String
  created_at : DBVal
  score : ℚ
  source : List String
  preview : String
  tags : List String
deriving DecidableEq

/-- One element of the output of `_group_by_conversation`
(`search.py:283`). -/
structure ConversationGroup where
  conversation_id : String
  hits : List MergedHit
deriving DecidableEq

/-- The role and time-bound filter of `semantic_search`
(`search.py:171-182`): skip when a role is requested and differs;
parse `created_at` with `float` (failure gives no timestamp); skip on a
bound only when a timestamp was obtained and violates it. -/
def semAdmits (role : Option String) (since untl : Option ℚ)
    (drole : Option String) (ca : DBVal) : Bool :=
  (match role with
   | none => true
   | some r => drole == some r) &&
  (match since, pyFloatOpt ca with
   | some s, some t => decide (s ≤ t)
   | _, _ => true) &&
  (match untl, pyFloatOpt ca with
   | some u, some t => decide (t ≤ u)
   | _, _ => true)

/-- The per-document meaning of the WHERE clauses added by `fts_search`
(`search.py:137-147`): `author_role=?` and
`CAST(created_at AS REAL) >= ?` / `<= ?`.  A NULL `created_at` casts to
NULL, and a NULL comparison does not satisfy the predicate. -/
def ftsAdmits (role : Option String) (since untl : Option ℚ)
    (drole : Option String) (ca : DBVal) : Bool :=
  (match role with
   | none => true
   | some r => drole == some r) &&
  (match since with
   | none => true
   | some s =>
     match sqliteCastReal ca with
     | none => false
     | some c => decide (s ≤ c)) &&
  (match untl with
   | none => true
   | some u =>
     match sqliteCastReal ca with
     | none => false
     | some c => decide (c ≤ u))

/-- `_normalize_bm25` (`search.py:203-206`). -/
def normalizeBm25 (bm25 : ℚ) : ℚ := 1 / (1 + max 0 bm25)

/-- The MergedHit built from an FTS row at `search.py:218-227`. -/
def mkFtsHit (rules : List Project) (r : FtsRow) : MergedHit :=
  { id := r.message_id
    conversation_id := r.conversation_id
    author_role := r.author_role
    created_at := r.created_at
    score := round4 (normalizeBm25 r.bm25)
    source := ["fts"]
    preview := r.snip
    tags := detectProjects rules r.snip }

/-- The MergedHit built from a semantic item at `search.py:247-256`. -/
def mkSemHit (rules : List Project) (it : SemItem) : MergedHit :=
  { id := it.id
    conversation_id := it.conversation_id
    author_role := it.author_role
    created_at := it.created_at
    score := it.score
    source := ["semantic"]
    preview := it.text
    tags := detectProjects rules it.text }

/-- The in-place update of an existing merged entry at
`search.py:236-245`: append `semantic` to sources, keep the best score
(re-rounded), replace the preview only when the semantic text is
strictly longer, and union in newly detected tags. -/
def updateSem (rules : List Project) (x : MergedHit) (it : SemItem) : MergedHit :=
  { x with
    source := x.source ++ ["semantic"]
    score := round4 (max x.score it.score)
    preview := if x.preview.length < it.text.length then it.text else x.preview
    tags := x.tags ++ (detectProjects rules it.text).filter (fun t => !(x.tags.contains t)) }

/-- The tag filter applied to an FTS row (`search.py:215-217`). -/
def ftsKeep (project : Option String) (rules : List Project) (r : FtsRow) : Bool :=
  match project with
  | none => true
  | some p => (detectProjects rules r.snip).contains p

/-- The tag filter applied to a semantic item (`search.py:231-234`). -/
def semKeep (project : Option String) (rules : List Project) (it : SemItem) : Bool :=
  match project with
  | none => true
  | some p => (detectProjects rules it.text).contains p

/-- Python dict assignment `merged[mid] = value` on an insertion-ordered
association list: replace in place when the key exists, else append. -/
def upsert : List MergedHit → MergedHit → List MergedHit
  | [], h => [h]
  | x :: xs, h => if x.id = h.id then h :: xs else x :: upsert xs h

/-- Processing of one FTS row by the first loop of `_merge_results`
(`search.py:212-227`). -/
def insertFts (project : Option String) (rules : List Project)
    (acc : List MergedHit) (r : FtsRow) : List MergedHit :=
  if ftsKeep project rules r then upsert acc (mkFtsHit rules r) else acc

/-- The keyed update performed for one semantic item: update the
existing entry in place, or append a fresh one (`search.py:235-256`). -/
def upsertSem (rules : List Project) : List MergedHit → SemItem → List MergedHit
  | [], it => [mkSemHit rules it]
  | x :: xs, it =>
    if x.id = it.id then updateSem rules x it :: xs else x :: upsertSem rules xs it

/-- Processing of one semantic item by the second loop of
`_merge_results` (`search.py:229-256`). -/
def insertSem (project : Option String) (rules : List Project)
    (acc : List MergedHit) (it : SemItem) : List MergedHit :=
  if semKeep project rules it then upsertSem rules acc it else acc

/-- The `merged` dict of `_merge_results` after both loops
(`search.py:210-256`), as its insertion-ordered value list. -/
def mergeDict (fts : List FtsRow) (sem : List SemItem)
    (project : Option String) (rules : List Project) : List MergedHit :=
  sem.foldl (insertSem project rules) (fts.foldl (insertFts project rules) [])

/-- The timestamp used by the sort key of `_merge_results`
(`search.py:259-265`): `float(created_at)` with any failure mapped to
`-1.0`. -/
def tsKey (x : MergedHit) : ℚ := (pyFloatOpt x.created_at).getD (-1)

/-- The sort key `(-score, -ts)` of `_merge_results` (`search.py:265`). -/
def sortKey (x : MergedHit) : ℚ × ℚ := (-x.score, -tsKey x)

/-- Lexicographic order on sort keys, the comparison Python's tuple sort
uses. -/
def keyLe (p q : ℚ × ℚ) : Prop := p.1 < q.1 ∨ (p.1 = q.1 ∧ p.2 ≤ q.2)

instance : DecidableRel keyLe := fun p q => by
  unfold keyLe; infer_instance

/-- Comparison of merged hits by their sort key. -/
def hitLe (a b : MergedHit) : Prop := keyLe (sortKey a) (sortKey b)

instance : DecidableRel hitLe := fun a b => by
  unfold hitLe; infer_instance

instance : IsTotal MergedHit hitLe := by
  constructor
  intro a b
  unfold hitLe keyLe
  rcases lt_trichotomy (sortKey a).1 (sortKey b).1 with h | h | h
  · exact Or.inl (Or.inl h)
  · rcases le_total (sortKey a).2 (sortKey b).2 with h2 | h2
    · exact Or.inl (Or.inr ⟨h, h2⟩)
    · exact Or.inr (Or.inr ⟨h.symm, h2⟩)
  · exact Or.inr (Or.inl h)

instance : IsTrans MergedHit hitLe := by
  constructor
  intro a b c hab hbc
  unfold hitLe keyLe at *
  rcases hab with h1 | ⟨h1, h1'⟩
  · rcases hbc with h2 | ⟨h2, _⟩
    · exact Or.inl (h1.trans h2)
    · exact Or.inl (h2 ▸ h1)
  · rcases hbc with h2 | ⟨h2, h2'⟩
    · exact Or.inl (h1 ▸ h2)
    · exact Or.inr ⟨h1.trans h2, h1'.trans h2'⟩

/-- `_merge_results` (`search.py:209-269`): build the merged dict from
both loops, then stably sort its values by `(-score, -ts)`.  Python's
`list.sort` is a stable sort, modelled by insertion sort. -/
def mergeResults (fts : List FtsRow) (sem : List SemItem)
    (project : Option String) (rules : List Project) : List MergedHit :=
  List.insertionSort hitLe (mergeDict fts sem project rules)

/-- Selects the FTS rows that survive the tag filter and carry the
message id `i`. -/
def lexPick (project : Option String) (rules : List Project) (i : String) (r : FtsRow) : Bool :=
  ftsKeep project rules r && decide (r.message_id = i)

/-- Selects the semantic items that survive the tag filter and carry the
id `i`. -/
def semPick (project : Option String) (rules : List Project) (i : String) (it : SemItem) : Bool :=
  semKeep project rules it && decide (it.id = i)

/-- The normalized scores contributed to the merged entry `i`: the
(rounded) normalized bm25 of the last surviving FTS row with that id —
later dict assignments overwrite earlier ones — followed by the scores
of all surviving semantic items with that id. -/
def contribs (fts : List FtsRow) (sem : List SemItem)
    (project : Option String) (rules : List Project) (i : String) : List ℚ :=
  (((fts.filter (lexPick project rules i)).getLast?).map
      (fun r => round4 (normalizeBm25 r.bm25))).toList
    ++ (sem.filter (semPick project rules i)).map (fun it => it.score)

/-- Lookup of the merged-dict entry with a given id. -/
def lookupHit (l : List MergedHit) (i : String) : Option MergedHit :=
  l.find? (fun x => decide (x.id = i))

/-- The score of the merged-dict entry with a given id, when present. -/
def scoreAt (l : List MergedHit) (i : String) : Option ℚ :=
  (lookupHit l i).map (fun h => h.score)

/-- Fold of binary `max` over a list, starting from an optional seed:
the incremental best-score accumulation the second merge loop performs. -/
def foldMaxOpt : Option ℚ → List ℚ → Option ℚ
  | o, [] => o
  | none, s :: ss => foldMaxOpt (some s) ss
  | some a, s :: ss => foldMaxOpt (some (max a s)) ss

/-- The bucket key of `_group_by_conversation`
(`search.py:275`): `it.get('conversation_id') or 'unknown'` — an absent
(or falsy, i.e. empty) conversation id falls into the reserved
`unknown` bucket. -/
def bucketKey (x : MergedHit) : String :=
  match x.conversation_id with
  | none => "unknown"
  | some c => if c = "" then "unknown" else c

/-- `by.setdefault(cid, []).append(it)` (`search.py:276`) on an
insertion-ordered association list: append to the existing bucket, or
append a fresh bucket at the end. -/
def addToBucket (k : String) (it : MergedHit) :
    List (String × List MergedHit) → List (String × List MergedHit)
  | [] => [(k, [it])]
  | p :: ps => if p.1 = k then (p.1, p.2 ++ [it]) :: ps else p :: addToBucket k it ps

/-- The `by` dict of `_group_by_conversation` (`search.py:273-276`). -/
def buckets (items : List MergedHit) : List (String × List MergedHit) :=
  items.foldl (fun acc x => addToBucket (bucketKey x) x acc) []

/-- `max((x.get('score') or 0.0) for x in hits)` (`search.py:279`);
`score` is always present, so the `or 0.0` only turns a zero score into
itself. -/
def bestScore (l : List MergedHit) : ℚ := ((l.map (fun x => x.score)).max?).getD 0

/-- Bucket comparison of `sorted(..., reverse=True)` at `search.py:279`:
descending best score, stable on ties. -/
def bucketLe (a b : String × List MergedHit) : Prop := bestScore b.2 ≤ bestScore a.2

instance : DecidableRel bucketLe := fun a b => by
  unfold bucketLe; infer_instance

instance : IsTotal (String × List MergedHit) bucketLe :=
  ⟨fun a b => le_total (bestScore b.2) (bestScore a.2)⟩

instance : IsTrans (String × List MergedHit) bucketLe :=
  ⟨fun _ _ _ hab hbc => le_trans hbc hab⟩

/-- Hit comparison of `sorted(msgs, key=lambda x: -(x.get('score') or 0.0))`
at `search.py:282`: descending score, stable on ties. -/
def hitScoreLe (a b : MergedHit) : Prop := b.score ≤ a.score

instance : DecidableRel hitScoreLe := fun a b => by
  unfold hitScoreLe; infer_instance

instance : IsTotal MergedHit hitScoreLe := ⟨fun a b => le_total b.score a.score⟩

instance : IsTrans MergedHit hitScoreLe := ⟨fun _ _ _ hab hbc => le_trans hbc hab⟩

/-- `_group_by_conversation` (`search.py:272-284`): bucket by
conversation id, rank buckets by best score descending, keep the top
`convos` buckets, and inside each kept bucket sort hits by score
descending and keep the top `per` of them.  Python's stable sorts are
modelled by insertion sort. -/
def groupByConversation (items : List MergedHit) (convos per : ℕ) :
    List ConversationGroup :=
  ((List.insertionSort bucketLe (buckets items)).take convos).map
    (fun p => { conversation_id := p.1
                hits := (List.insertionSort hitScoreLe p.2).take per })

/-- The best merged score among the items that bucket onto `cid`. -/
def maxScoreIn (items : List MergedHit) (cid : String) : ℚ :=
  bestScore (items.filter (fun x => decide (bucketKey x = cid)))

/-- The grouped output of `main` (`search.py:337-338`): only the first
`max(top, convos * per_convo)` merged hits are handed to
`_group_by_conversation`. -/
def mainGrouped (merged : List MergedHit) (top convos per : ℕ) :
    List ConversationGroup :=
  groupByConversation (merged.take (max top (convos * per))) convos per

/-- The dot product the `for x, y in zip(a, b)` loop of `cosine`
accumulates (`search.py:111-118`); `zip` silently truncates to the
shorter vector. -/
def dotZ (a b : List ℚ) : ℚ := ((a.zip b).map (fun p => p.1 * p.2)).sum

/-- The squared norm of (the truncated) `a` accumulated by the same
loop. -/
def naZ (a b : List ℚ) : ℚ := ((a.zip b).map (fun p => p.1 * p.1)).sum

/-- The squared norm of (the truncated) `b` accumulated by the same
loop. -/
def nbZ (a b : List ℚ) : ℚ := ((a.zip b).map (fun p => p.2 * p.2)).sum

/-- `cosine` (`search.py:111-121`): `0.0` when either accumulated norm
is zero, else `dot / (sqrt(na) * sqrt(nb))`. -/
noncomputable def cosine (a b : List ℚ) : ℝ :=
  if naZ a b = 0 ∨ nbZ a b = 0 then 0
  else (dotZ a b : ℝ) / (Real.sqrt (naZ a b) * Real.sqrt (nbZ a b))

/-- Round a real to the nearest integer, ties to even: Python `round`
on the real value a float computation denotes. -/
noncomputable def roundHalfEvenR (x : ℝ) : ℤ :=
  if x - (⌊x⌋ : ℝ) < 1/2 then ⌊x⌋
  else if 1/2 < x - (⌊x⌋ : ℝ) then ⌊x⌋ + 1
  else if 2 ∣ ⌊x⌋ then ⌊x⌋ else ⌊x⌋ + 1

/-- Python `round(s, 4)` on a real-valued similarity (`search.py:193`). -/
noncomputable def round4R (x : ℝ) : ℚ := (roundHalfEvenR (x * 10000) : ℚ) / 10000

/-- The preview truncation of `semantic_search` (`search.py:198`):
`(text[:700] + '…') if len(text) > 700 else text`. -/
def truncate700 (s : String) : String :=
  if 700 < s.data.length then String.mk (s.data.take 700 ++ ['…']) else s

/-- `ollama_embed` (`search.py:95-103`) at its observable boundary:
`resp = none` models a transport-level failure of `urllib.request.urlopen`
(connection error or timeout), `some v` the decoded `embedding` field;
an empty embedding raises (`search.py:101-102`). -/
def ollamaEmbed (resp : Option (List ℚ)) : Except String (List ℚ) :=
  match resp with
  | none => Except.error "provider failure"
  | some v => if v = [] then Except.error "empty embedding" else Except.ok v

/-- `semantic_search` (`search.py:156-200`): embed the query (failure is
fatal), drop documents with empty or short text, apply the role/time
filters on parsed metadata, score every survivor by cosine similarity,
sort descending (stably), keep the top `top`, and emit items with
rounded score and truncated text. -/
noncomputable def semanticSearch (resp : Option (List ℚ)) (docs : List SemDoc)
    (role : Option String) (since untl : Option ℚ) (top minLen : ℕ) :
    Except String (List SemItem) :=
  match ollamaEmbed resp with
  | Except.error e => Except.error e
  | Except.ok qv =>
    let scored := docs.filterMap (fun d =>
      if d.text = "" ∨ d.text.data.length < minLen then none
      else if semAdmits role since untl d.author_role d.created_at then
        some (cosine qv d.vec, d)
      else none)
    let ranked := @List.insertionSort (ℝ × SemDoc) (fun x y => y.1 ≤ x.1)
      (fun _ _ => Classical.dec _) scored
    Except.ok ((ranked.take top).map (fun sd =>
      { score := round4R sd.1
        id := sd.2.id
        conversation_id := sd.2.conversation_id
        author_role := sd.2.author_role
        created_at := sd.2.created_at
        text := truncate700 sd.2.text }))

/-- The query pipeline of `main` (`search.py:322-325`): lexical rows and
semantic items are merged; a failure of the semantic side (the embedding
call) aborts the whole query, with no lexical-only fallback. -/
noncomputable def runSearch (fts : List FtsRow) (resp : Option (List ℚ))
    (docs : List SemDoc) (role : Option String) (since untl : Option ℚ)
    (top minLen : ℕ) (project : Option String) (rules : List Project) :
    Except String (List MergedHit) :=
  match semanticSearch resp docs role since untl top minLen with
  | Except.error e => Except.error e
  | Except.ok sem => Except.ok (mergeResults fts sem project rules)

/-- Lexical row m1 with raw bm25 0.5 of the spec's concrete scenario. -/
def c5f1 : FtsRow :=
  { message_id := "m1", conversation_id := none, author_role := none,
    created_at := DBVal.null, snip := "s1", bm25 := 1/2 }

/-- Lexical row m2 with raw bm25 2.0 of the spec's concrete scenario. -/
def c5f2 : FtsRow :=
  { message_id := "m2", conversation_id := none, author_role := none,
    created_at := DBVal.null, snip := "s2", bm25 := 2 }

/-- Semantic item m2 with similarity 0.9 of the concrete scenario. -/
def c5s1 : SemItem :=
  { score := 9/10, id := "m2", conversation_id := none, author_role := none,
    created_at := DBVal.null, text := "t2" }

/-- Semantic item m3 with similarity 0.4 of the concrete scenario. -/
def c5s2 : SemItem :=
  { score := 2/5, id := "m3", conversation_id := none, author_role := none,
    created_at := DBVal.null, text := "t3" }

/-- The lexical rows of the spec's concrete merge scenario. -/
def c5fts : List FtsRow := [c5f1, c5f2]

/-- The semantic items of the spec's concrete merge scenario. -/
def c5sem : List SemItem := [c5s1, c5s2]

/-- The merged hit the scenario produces for m1. -/
def m1hit : MergedHit :=
  { id := "m1", conversation_id := none, author_role := none,
    created_at := DBVal.null, score := 6667/10000, source := ["fts"],
    preview := "s1", tags := [] }

/-- The merged hit the scenario produces for m2. -/
def m2hit : MergedHit :=
  { id := "m2", conversation_id := none, author_role := none,
    created_at := DBVal.null, score := 9/10, source := ["fts", "semantic"],
    preview := "s2", tags := [] }

/-- The merged hit the scenario produces for m3. -/
def m3hit : MergedHit :=
  { id := "m3", conversation_id := none, author_role := none,
    created_at := DBVal.null, score := 2/5, source := ["semantic"],
    preview := "t3", tags := [] }

/-- A semantic item whose similarity is the cosine of opposite vectors,
`-1`. -/
def negItem : SemItem :=
  { score := -1, id := "m0", conversation_id := none, author_role := none,
    created_at := DBVal.null, text := "x" }

/-- A semantic result list containing only `negItem`. -/
def negSem : List SemItem := [negItem]

/-- The merged hit produced from `negSem` alone. -/
def negHit : MergedHit :=
  { id := "m0", conversation_id := none, author_role := none,
    created_at := DBVal.null, score := -1, source := ["semantic"],
    preview := "x", tags := [] }

/-- A semantic item with score 0.5 and a (negative) numeric timestamp. -/
def c2semA : SemItem :=
  { score := 1/2, id := "a", conversation_id := none, author_role := none,
    created_at := DBVal.real (-5), text := "ta" }

/-- A semantic item with score 0.5 and an unparseable timestamp. -/
def c2semB : SemItem :=
  { score := 1/2, id := "b", conversation_id := none, author_role := none,
    created_at := DBVal.null, text := "tb" }

/-- Two equal-score semantic items, the first with a (negative) numeric
timestamp, the second with an unparseable one. -/
def c2sem : List SemItem := [c2semA, c2semB]

/-- A lexical row with raw bm25 0 (normalized score 1). -/
def w1row : FtsRow :=
  { message_id := "m1", conversation_id := none, author_role := none,
    created_at := DBVal.null, snip := "sn", bm25 := 0 }

/-- A semantic item on the same id as `w1row`. -/
def w1item : SemItem :=
  { score := 9/10, id := "m1", conversation_id := none, author_role := none,
    created_at := DBVal.null, text := "t" }

/-- One lexical row with raw bm25 0 (normalized score 1). -/
def w1fts : List FtsRow := [w1row]

/-- One semantic item on the same id as `w1fts`. -/
def w1sem : List SemItem := [w1item]

/-- The merged hit produced from `w1fts` and `w1sem`. -/
def w1hit : MergedHit :=
  { id := "m1", conversation_id := none, author_role := none,
    created_at := DBVal.null, score := 1, source := ["fts", "semantic"],
    preview := "sn", tags := [] }

/-- A single merged hit used to exercise the grouper. -/
def w7hit : MergedHit :=
  { id := "h1", conversation_id := some "c1", author_role := none,
    created_at := DBVal.null, score := 1, source := ["fts"],
    preview := "p", tags := [] }

theorem qfloor_eq (x : ℚ) : qfloor x = ⌊x⌋ := Rat.floor_def.symm

theorem roundHalfEven_of_lt {x : ℚ} (h : x - ⌊x⌋ < 1/2) : roundHalfEven x = ⌊x⌋ := by
  unfold roundHalfEven
  rw [qfloor_eq, if_pos h]

theorem roundHalfEven_of_gt {x : ℚ} (h : 1/2 < x - ⌊x⌋) : roundHalfEven x = ⌊x⌋ + 1 := by
  unfold roundHalfEven
  rw [qfloor_eq, if_neg (by linarith), if_pos h]

theorem roundHalfEven_le {x : ℚ} {b : ℤ} (h : x ≤ (b : ℚ)) : roundHalfEven x ≤ b := by
  have hfb : ⌊x⌋ ≤ b := by
    have := Int.floor_mono h
    simpa using this
  have hfx : (⌊x⌋ : ℚ) ≤ x := Int.floor_le x
  unfold roundHalfEven
  rw [qfloor_eq]
  split_ifs with h1 h2 h3
  · exact hfb
  · -- the fractional part is at least 1/2, so the floor is strictly below b
    have hlt : (⌊x⌋ : ℚ) + 1/2 ≤ x := by linarith
    have : (⌊x⌋ : ℚ) < (b : ℚ) := by linarith
    have : ⌊x⌋ < b := by exact_mod_cast this
    omega
  · exact hfb
  · have hlt : (⌊x⌋ : ℚ) + 1/2 ≤ x := by linarith
    have : (⌊x⌋ : ℚ) < (b : ℚ) := by linarith
    have : ⌊x⌋ < b := by exact_mod_cast this
    omega

theorem le_roundHalfEven {x : ℚ} {a : ℤ} (h : (a : ℚ) ≤ x) : a ≤ roundHalfEven x := by
  have hfa : a ≤ ⌊x⌋ := Int.le_floor.mpr h
  unfold roundHalfEven
  rw [qfloor_eq]
  split_ifs <;> omega

theorem round4_bounds {x : ℚ} {a b : ℤ} (ha : (a : ℚ) ≤ x) (hb : x ≤ (b : ℚ)) :
    (a : ℚ) ≤ round4 x ∧ round4 x ≤ (b : ℚ) := by
  have h1 : ((a * 10000 : ℤ) : ℚ) ≤ x * 10000 := by push_cast; linarith
  have h2 : x * 10000 ≤ ((b * 10000 : ℤ) : ℚ) := by push_cast; linarith
  have l1 := le_roundHalfEven h1
  have l2 := roundHalfEven_le h2
  have l1q : ((a * 10000 : ℤ) : ℚ) ≤ (roundHalfEven (x * 10000) : ℚ) := by exact_mod_cast l1
  have l2q : (roundHalfEven (x * 10000) : ℚ) ≤ ((b * 10000 : ℤ) : ℚ) := by exact_mod_cast l2
  push_cast at l1q l2q
  constructor
  · rw [round4, le_div_iff₀ (by norm_num : (0:ℚ) < 10000)]
    linarith
  · rw [round4, div_le_iff₀ (by norm_num : (0:ℚ) < 10000)]
    linarith

theorem round4_fixed (z : ℤ) : round4 ((z : ℚ) / 10000) = (z : ℚ) / 10000 := by
  have hx : ((z : ℚ) / 10000) * 10000 = (z : ℚ) := by field_simp
  rw [round4, hx, roundHalfEven_of_lt (by norm_num [Int.floor_intCast])]
  simp

theorem round4_round4 (x : ℚ) : round4 (round4 x) = round4 x := round4_fixed _

theorem round4_max_fixed {a b : ℚ} (ha : round4 a = a) (hb : round4 b = b) :
    round4 (max a b) = max a b := by
  rcases max_choice a b with h | h <;> rw [h] <;> assumption

theorem round4_one : round4 1 = 1 := by
  have h : (1 : ℚ) = ((10000 : ℤ) : ℚ) / 10000 := by norm_num
  rw [h, round4_fixed]

theorem round4_nine_tenths : round4 (9/10) = 9/10 := by
  have h : (9/10 : ℚ) = ((9000 : ℤ) : ℚ) / 10000 := by norm_num
  rw [h, round4_fixed]

theorem round4_two_fifths : round4 (2/5) = 2/5 := by
  have h : (2/5 : ℚ) = ((4000 : ℤ) : ℚ) / 10000 := by norm_num
  rw [h, round4_fixed]

theorem round4_two_thirds : round4 (2/3) = 6667/10000 := by
  have hx : (2/3 : ℚ) * 10000 = 20000/3 := by norm_num
  have hf : ⌊(20000/3 : ℚ)⌋ = 6666 := by norm_num
  rw [round4, hx, roundHalfEven_of_gt (by rw [hf]; norm_num)]
  rw [hf]
  norm_num

theorem round4_one_third : round4 (1/3) = 3333/10000 := by
  have hx : (1/3 : ℚ) * 10000 = 10000/3 := by norm_num
  have hf : ⌊(10000/3 : ℚ)⌋ = 3333 := by norm_num
  rw [round4, hx, roundHalfEven_of_lt (by rw [hf]; norm_num)]
  rw [hf]
  norm_num

theorem normalizeBm25_pos (b : ℚ) : 0 < normalizeBm25 b := by
  unfold normalizeBm25
  have h : (0 : ℚ) < 1 + max 0 b := by
    have := le_max_left (0 : ℚ) b
    linarith
  positivity

theorem normalizeBm25_le_one (b : ℚ) : normalizeBm25 b ≤ 1 := by
  unfold normalizeBm25
  have h : (0 : ℚ) < 1 + max 0 b := by
    have := le_max_left (0 : ℚ) b
    linarith
  rw [div_le_one h]
  have := le_max_left (0 : ℚ) b
  linarith

theorem zip_take_min (a b : List ℚ) :
    (a.take (min a.length b.length)).zip (b.take (min a.length b.length)) = a.zip b := by
  induction a generalizing b with
  | nil => simp
  | cons x xs ih =>
    cases b with
    | nil => simp
    | cons y ys =>
      simp only [List.length_cons, Nat.succ_min_succ, List.take_succ_cons, List.zip_cons_cons]
      rw [ih]

/-- C9: `cosine` is a total function; it accumulates its dot product and
norms over only the zipped (length-truncated) prefixes of its arguments,
so its value only depends on the first `min (len a) (len b)` components,
and it returns `0` whenever either truncated norm is zero instead of
dividing. -/
theorem cosine_truncates_and_zero_norm (a b : List ℚ) :
    cosine a b = cosine (a.take (min a.length b.length)) (b.take (min a.length b.length)) ∧
    (naZ a b = 0 ∨ nbZ a b = 0 → cosine a b = 0) := by
  constructor
  · have hz := zip_take_min a b
    unfold cosine naZ nbZ dotZ
    rw [hz]
  · intro h
    unfold cosine
    rw [if_pos h]

/-- Witness for C9 at concrete inputs: vectors of unequal length are
scored on their common prefix, and a zero vector yields similarity `0`. -/
theorem cosine_truncates_and_zero_norm_witness :
    cosine [(1:ℚ), 5] [2] = cosine [(1:ℚ)] [2] ∧
    (naZ [(0:ℚ)] [3] = 0 ∨ nbZ [(0:ℚ)] [3] = 0) ∧ cosine [(0:ℚ)] [3] = 0 := by
  refine ⟨(cosine_truncates_and_zero_norm [(1:ℚ), 5] [2]).1, Or.inl ?_, ?_⟩
  · show naZ [(0:ℚ)] [3] = 0
    unfold naZ
    norm_num
  · exact (cosine_truncates_and_zero_norm [(0:ℚ)] [3]).2
      (Or.inl (by unfold naZ; norm_num))

/-- C3 counterexample: a document whose `created_at` is stored text with
no numeric prefix (e.g. `'abc'`, modelled by `DBVal.text none 0`) is
rejected by the lexical predicate under `since = 5` (SQLite casts the
text to `0.0`), but admitted by the semantic filter (Python `float`
raises, the timestamp is treated as absent and the bound is skipped).
The same split occurs for a missing `created_at`.  This falsifies the
claim that the two filters admit exactly the same documents, including
unparseable or missing timestamps. -/
theorem filters_disagree_counterexample :
    ftsAdmits none (some 5) none none (DBVal.text none 0) = false ∧
    semAdmits none (some 5) none none (DBVal.text none 0) = true ∧
    ftsAdmits none (some 5) none none DBVal.null = false ∧
    semAdmits none (some 5) none none DBVal.null = true := by
  refine ⟨?_, rfl, rfl, rfl⟩
  unfold ftsAdmits sqliteCastReal
  norm_num

/-- C3 (amended): the semantic filter and the per-document meaning of the
lexical SQL predicates agree on the role filter unconditionally, and on
the time bounds for every document whose `created_at` coerces to the
same number under Python `float` and SQLite `CAST(... AS REAL)` — i.e.
every stored numeric value and every strictly numeric text.  They
diverge exactly on missing or non-numeric `created_at` (and on text
whose numeric prefix differs from its strict parse), where the semantic
side skips the bound and the lexical side applies it to NULL or to the
prefix value. -/
theorem filters_agree_on_numeric (role : Option String) (since untl : Option ℚ)
    (drole : Option String) (ca : DBVal)
    (h : ∃ q : ℚ, pyFloatOpt ca = some q ∧ sqliteCastReal ca = some q) :
    semAdmits role since untl drole ca = ftsAdmits role since untl drole ca := by
  obtain ⟨q, h1, h2⟩ := h
  unfold semAdmits ftsAdmits
  rw [h1, h2]
  cases since <;> cases untl <;> rfl

/-- Witness for C3 (amended) at a concrete numeric timestamp. -/
theorem filters_agree_on_numeric_witness :
    (∃ q : ℚ, pyFloatOpt (DBVal.real 7) = some q ∧ sqliteCastReal (DBVal.real 7) = some q) ∧
    semAdmits none (some 5) none none (DBVal.real 7) =
      ftsAdmits none (some 5) none none (DBVal.real 7) :=
  ⟨⟨7, rfl, rfl⟩, filters_agree_on_numeric none (some 5) none none (DBVal.real 7) ⟨7, rfl, rfl⟩⟩

/-- C4 counterexample: the query `"a\tb"` contains whitespace (a tab)
but no space character, so the code passes it through unchanged instead
of issuing a phrase match; this falsifies the claim that a phrase match
is issued whenever the query contains whitespace. -/
theorem matchArg_whitespace_counterexample :
    ("a\tb".data.any Char.isWhitespace = true) ∧
    matchArg "a\tb" = "a\tb" ∧
    "a\tb" ≠ String.mk ('"' :: ("a\tb".data.filter (fun c => !(c == '"')) ++ ['"'])) := by
  refine ⟨by decide, ?_, by decide⟩
  unfold matchArg
  rw [if_neg (by decide)]

/-- C4 (amended): the lexical search issues a phrase match exactly when
the query contains a space character (Python `' ' in query`), not
arbitrary whitespace: the query is then wrapped in double quotes with
every embedded double quote stripped first (the wrapped body contains no
quote), and otherwise the query is passed through unchanged. -/
theorem matchArg_space_phrase (q : String) :
    (q.data.contains ' ' = true →
      (matchArg q).data = '"' :: (q.data.filter (fun c => !(c == '"')) ++ ['"']) ∧
      '"' ∉ q.data.filter (fun c => !(c == '"'))) ∧
    (q.data.contains ' ' = false → matchArg q = q) := by
  constructor
  · intro h
    constructor
    · unfold matchArg
      rw [if_pos h]
    · intro hmem
      have := List.mem_filter.mp hmem
      simp at this
  · intro h
    unfold matchArg
    rw [if_neg (by rw [h]; simp)]

/-- Witness for C4 (amended) at the concrete query `"a b"`. -/
theorem matchArg_space_phrase_witness :
    ("a b".data.contains ' ' = true) ∧
    (matchArg "a b").data = '"' :: ("a b".data.filter (fun c => !(c == '"')) ++ ['"']) :=
  ⟨by decide, ((matchArg_space_phrase "a b").1 (by decide)).1⟩

/-- C6: when the embedding call fails (transport error, modelled by
`resp = none`) or returns an empty embedding (`resp = some []`), the
semantic search raises and the whole query pipeline returns an error —
it never returns a lexical-only result list. -/
theorem embed_failure_fatal (fts : List FtsRow) (resp : Option (List ℚ))
    (docs : List SemDoc) (role : Option String) (since untl : Option ℚ)
    (top minLen : ℕ) (project : Option String) (rules : List Project)
    (h : resp = none ∨ resp = some []) :
    (∃ e, runSearch fts resp docs role since untl top minLen project rules = Except.error e) ∧
    ∀ hits, runSearch fts resp docs role since untl top minLen project rules ≠ Except.ok hits := by
  rcases h with h | h <;> subst h
  · exact ⟨⟨"provider failure", rfl⟩, fun hits hc => by
      simp [runSearch, semanticSearch, ollamaEmbed] at hc⟩
  · exact ⟨⟨"empty embedding", rfl⟩, fun hits hc => by
      simp [runSearch, semanticSearch, ollamaEmbed] at hc⟩

/-- Witness for C6 at a concrete failed provider response. -/
theorem embed_failure_fatal_witness :
    ((none : Option (List ℚ)) = none ∨ (none : Option (List ℚ)) = some []) ∧
    ((∃ e, runSearch [] none [] none none none 5 120 none [] = Except.error e) ∧
     ∀ hits, runSearch [] none [] none none none 5 120 none [] ≠ Except.ok hits) :=
  ⟨Or.inl rfl, embed_failure_fatal [] none [] none none none 5 120 none [] (Or.inl rfl)⟩

theorem filter_orderedInsert_pos {α : Type} (r : α → α → Prop) [DecidableRel r]
    (p : α → Bool) (a : α) (l : List α) (ha : p a = true)
    (hstop : ∀ b ∈ l, p b = true → r a b) :
    (List.orderedInsert r a l).filter p = a :: l.filter p := by
  induction l with
  | nil => simp [List.orderedInsert, ha]
  | cons b t ih =>
    by_cases hr : r a b
    · rw [List.orderedInsert, if_pos hr]
      simp [List.filter_cons, ha]
    · rw [List.orderedInsert, if_neg hr]
      have hpb : p b = false := by
        cases hpb : p b
        · rfl
        · exact absurd (hstop b (List.mem_cons_self b t) hpb) hr
      have ih' := ih (fun c hc hpc => hstop c (List.mem_cons_of_mem b hc) hpc)
      simp [List.filter_cons, hpb, ih']

theorem filter_orderedInsert_neg {α : Type} (r : α → α → Prop) [DecidableRel r]
    (p : α → Bool) (a : α) (l : List α) (ha : p a = false) :
    (List.orderedInsert r a l).filter p = l.filter p := by
  induction l with
  | nil => simp [List.orderedInsert, ha]
  | cons b t ih =>
    by_cases hr : r a b
    · rw [List.orderedInsert, if_pos hr]
      simp [List.filter_cons, ha]
    · rw [List.orderedInsert, if_neg hr]
      rw [List.filter_cons, List.filter_cons]
      cases hpb : p b <;> simp [ih]

/-- Stability of the stable sort: the subsequence of elements satisfying
a predicate that forces mutual comparability is unchanged. -/
theorem insertionSort_filter_eq {α : Type} (r : α → α → Prop) [DecidableRel r]
    (p : α → Bool) (hkey : ∀ a b, p a = true → p b = true → r a b) (l : List α) :
    (List.insertionSort r l).filter p = l.filter p := by
  induction l with
  | nil => rfl
  | cons a t ih =>
    show (List.orderedInsert r a (List.insertionSort r t)).filter p = _
    cases hp : p a
    · rw [filter_orderedInsert_neg r p a _ hp, ih, List.filter_cons, hp]
      simp
    · rw [filter_orderedInsert_pos r p a _ hp
        (fun b _ hb => hkey a b hp hb), ih, List.filter_cons, hp]
      simp

theorem hitLe_elim {a b : MergedHit} (h : hitLe a b) :
    b.score ≤ a.score ∧ (a.score = b.score → tsKey b ≤ tsKey a) := by
  unfold hitLe keyLe sortKey at h
  rcases h with h | ⟨h1, h2⟩
  · simp only at h
    constructor
    · linarith
    · intro he
      rw [he] at h
      exact absurd h (lt_irrefl _)
  · simp only at h1 h2
    constructor
    · linarith
    · intro _
      linarith

/-- C2 (amended): in the merged output, adjacent hits have non-increasing
scores; on equal scores the effective timestamp — `float(created_at)`
with any parse failure replaced by the sentinel `-1.0`, not by the
lowest possible value — is non-increasing; and hits with equal
`(score, effective timestamp)` keys keep their prior relative order (the
sort is stable with respect to the merged dict's insertion order).  An
unparseable `created_at` therefore sorts last among equal-score hits
only when all parsed timestamps are at least `-1.0`. -/
theorem merge_order_invariant (fts : List FtsRow) (sem : List SemItem)
    (project : Option String) (rules : List Project) :
    List.Chain'
      (fun a b => b.score ≤ a.score ∧ (a.score = b.score → tsKey b ≤ tsKey a))
      (mergeResults fts sem project rules) ∧
    ∀ k : ℚ × ℚ,
      (mergeResults fts sem project rules).filter (fun x => decide (sortKey x = k)) =
      (mergeDict fts sem project rules).filter (fun x => decide (sortKey x = k)) := by
  constructor
  · have hs : List.Sorted hitLe (mergeResults fts sem project rules) :=
      List.sorted_insertionSort hitLe (mergeDict fts sem project rules)
    exact List.Pairwise.chain' (List.Pairwise.imp (fun h => hitLe_elim h) hs)
  · intro k
    exact insertionSort_filter_eq hitLe (fun x => decide (sortKey x = k))
      (fun a b ha hb => by
        have h1 : sortKey a = k := of_decide_eq_true ha
        have h2 : sortKey b = k := of_decide_eq_true hb
        unfold hitLe
        rw [h1, h2]
        exact Or.inr ⟨rfl, le_refl _⟩)
      (mergeDict fts sem project rules)

/-- C2 counterexample: two equal-score hits, one with the parseable
(negative) timestamp `-5`, one with an unparseable timestamp.  The code
replaces a failed parse by the sentinel `-1.0`, which is larger than
`-5`, so the unparseable hit sorts FIRST among the equal-score hits —
not last, as the claim's "sorts as if its timestamp were the lowest
possible value" requires. -/
theorem merge_order_counterexample :
    ((mergeResults [] c2sem none []).map (fun h => (h.id, h.score))) =
      [("b", 1/2), ("a", 1/2)] ∧
    pyFloatOpt c2semB.created_at = none ∧
    pyFloatOpt c2semA.created_at = some (-5) := by
  refine ⟨?_, rfl, rfl⟩
  have hdict : mergeDict [] c2sem none [] = [mkSemHit [] c2semA, mkSemHit [] c2semB] := by
    simp [mergeDict, c2sem, insertSem, semKeep, upsertSem, mkSemHit, c2semA, c2semB]
  have hno : ¬ hitLe (mkSemHit [] c2semA) (mkSemHit [] c2semB) := by
    unfold hitLe keyLe sortKey tsKey mkSemHit pyFloatOpt c2semA c2semB
    norm_num
  rw [mergeResults, hdict]
  unfold List.insertionSort List.insertionSort List.insertionSort
  rw [List.orderedInsert_nil]
  rw [List.orderedInsert, if_neg hno]
  rw [List.orderedInsert_nil]
  simp [mkSemHit, c2semA, c2semB]

/-- Full evaluation of the merge on the spec's concrete scenario. -/
theorem c5_eval : mergeResults c5fts c5sem none [] = [m2hit, m1hit, m3hit] := by
  have h1 : round4 (normalizeBm25 (1/2)) = 6667/10000 := by
    rw [normalizeBm25, show max (0:ℚ) (1/2) = 1/2 from max_eq_right (by norm_num),
      show (1:ℚ)/(1 + 1/2) = 2/3 by norm_num, round4_two_thirds]
  have h2 : round4 (normalizeBm25 2) = 3333/10000 := by
    rw [normalizeBm25, show max (0:ℚ) 2 = 2 from max_eq_right (by norm_num),
      show (1:ℚ)/(1 + 2) = 1/3 by norm_num, round4_one_third]
  have h3 : round4 (max (3333/10000 : ℚ) (9/10)) = 9/10 := by
    rw [show max (3333/10000 : ℚ) (9/10) = 9/10 from max_eq_right (by norm_num),
      round4_nine_tenths]
  have h1' : round4 (normalizeBm25 (2⁻¹ : ℚ)) = 6667/10000 := by
    rw [show (2⁻¹ : ℚ) = 1/2 by norm_num]
    exact h1
  have hlen : ("t2".length ≤ "s2".length) := by decide
  have hdict : mergeDict c5fts c5sem none [] = [m1hit, m2hit, m3hit] := by
    simp [mergeDict, c5fts, c5sem, c5f1, c5f2, c5s1, c5s2, insertFts, insertSem,
      ftsKeep, semKeep, upsert, upsertSem, mkFtsHit, mkSemHit, updateSem,
      detectProjects, h1, h1', h2, h3, hlen, m1hit, m2hit, m3hit]
  have hBC : hitLe m2hit m3hit := Or.inl (by
    unfold sortKey tsKey m2hit m3hit pyFloatOpt
    norm_num)
  have hAB : ¬ hitLe m1hit m2hit := by
    unfold hitLe keyLe sortKey tsKey m1hit m2hit pyFloatOpt
    norm_num
  have hAC : hitLe m1hit m3hit := Or.inl (by
    unfold sortKey tsKey m1hit m3hit pyFloatOpt
    norm_num)
  rw [mergeResults, hdict]
  unfold List.insertionSort List.insertionSort List.insertionSort List.insertionSort
  rw [List.orderedInsert_nil]
  rw [List.orderedInsert, if_pos hBC]
  rw [List.orderedInsert, if_neg hAB]
  rw [List.orderedInsert, if_pos hAC]

/-- C5 counterexample: on the spec's concrete scenario the code rounds
to four decimal places, so m1 normalizes to `0.6667` and m2 to `0.3333`,
not to the claimed `0.667` and `0.333`. -/
theorem c5_scenario_counterexample :
    ((mergeResults c5fts c5sem none []).map (fun h => (h.id, h.score))) =
      [("m2", 9/10), ("m1", 6667/10000), ("m3", 2/5)] ∧
    (6667/10000 : ℚ) ≠ 667/1000 ∧ (3333/10000 : ℚ) ≠ 333/1000 := by
  refine ⟨?_, by norm_num, by norm_num⟩
  rw [c5_eval]
  simp [m1hit, m2hit, m3hit]

/-- C5 (amended): on lexical hits m1 (raw 0.5) and m2 (raw 2.0) and
semantic hits m2 (0.9) and m3 (0.4), with no tag filter, the merge
normalizes the lexical scores to `0.6667` for m1 and `0.3333` for m2
(four-decimal rounding), yields m1 with score `0.6667` and sources
`[fts]`, m2 with score `0.9` and sources `[fts, semantic]`, m3 with
score `0.4` and sources `[semantic]`, ordered `[m2, m1, m3]`; the top 2
are `[m2, m1]`. -/
theorem c5_scenario_amended :
    round4 (normalizeBm25 c5f1.bm25) = 6667/10000 ∧
    round4 (normalizeBm25 c5f2.bm25) = 3333/10000 ∧
    ((mergeResults c5fts c5sem none []).map (fun h => (h.id, h.score, h.source))) =
      [("m2", 9/10, ["fts", "semantic"]), ("m1", 6667/10000, ["fts"]),
       ("m3", 2/5, ["semantic"])] ∧
    ((mergeResults c5fts c5sem none []).take 2).map (fun h => h.id) = ["m2", "m1"] := by
  refine ⟨?_, ?_, ?_, ?_⟩
  · show round4 (normalizeBm25 (1/2)) = 6667/10000
    rw [normalizeBm25, show max (0:ℚ) (1/2) = 1/2 from max_eq_right (by norm_num),
      show (1:ℚ)/(1 + 1/2) = 2/3 by norm_num, round4_two_thirds]
  · show round4 (normalizeBm25 2) = 3333/10000
    rw [normalizeBm25, show max (0:ℚ) 2 = 2 from max_eq_right (by norm_num),
      show (1:ℚ)/(1 + 2) = 1/3 by norm_num, round4_one_third]
  · rw [c5_eval]
    simp [m1hit, m2hit, m3hit]
  · rw [c5_eval]
    simp [m1hit, m2hit, m3hit]

theorem lookupHit_upsert (l : List MergedHit) (h : MergedHit) (i : String) :
    lookupHit (upsert l h) i = if h.id = i then some h else lookupHit l i := by
  induction l with
  | nil =>
    by_cases hid : h.id = i <;> simp [upsert, lookupHit, List.find?, hid]
  | cons x xs ih =>
    by_cases hx : x.id = h.id
    · rw [upsert, if_pos hx]
      by_cases hid : h.id = i
      · simp [lookupHit, List.find?, hid]
      · have hxi : ¬ x.id = i := by rw [hx]; exact hid
        simp [lookupHit, List.find?, hid, hxi]
    · rw [upsert, if_neg hx]
      by_cases hxi : x.id = i
      · have hid : ¬ h.id = i := by
          intro hc
          exact hx (hxi.trans hc.symm)
        simp [lookupHit, List.find?, hxi, hid]
      · simp only [lookupHit, List.find?] at ih ⊢
        simp [hxi, ih]

theorem getLast?_filter_cons {α : Type} (p : α → Bool) (a : α) (l : List α) :
    ((a :: l).filter p).getLast? =
    match (l.filter p).getLast? with
    | some x => some x
    | none => if p a then some a else none := by
  rw [List.filter_cons]
  cases hpa : p a
  · rw [if_neg (by simp [hpa])]
    cases h : (l.filter p).getLast? <;> simp [h]
  · rw [if_pos (by simp [hpa])]
    cases h : (l.filter p).getLast? <;>
      simp [List.getLast?_cons, List.getLastD_eq_getLast?, h]

theorem scoreAt_foldl_insertFts (project : Option String) (rules : List Project)
    (rows : List FtsRow) (acc : List MergedHit) (i : String) :
    scoreAt (rows.foldl (insertFts project rules) acc) i =
    match (rows.filter (lexPick project rules i)).getLast? with
    | some r => some (round4 (normalizeBm25 r.bm25))
    | none => scoreAt acc i := by
  induction rows generalizing acc with
  | nil => simp
  | cons r rest ih =>
    rw [List.foldl_cons, ih (insertFts project rules acc r), getLast?_filter_cons]
    cases hlast : (rest.filter (lexPick project rules i)).getLast? with
    | some x => rfl
    | none =>
      simp only
      cases hp : lexPick project rules i r
      · rw [if_neg (by simp [hp])]
        have hp' : ¬ (ftsKeep project rules r = true ∧ r.message_id = i) := by
          simpa [lexPick] using hp
        cases hkeep : ftsKeep project rules r
        · rw [insertFts, hkeep]
          simp
        · have hid : ¬ (r.message_id = i) := fun hc => hp' ⟨hkeep, hc⟩
          rw [insertFts, hkeep]
          rw [if_pos rfl]
          rw [scoreAt, lookupHit_upsert,
            if_neg (show ¬ ((mkFtsHit rules r).id = i) from hid)]
          rfl
      · rw [if_pos (by simp [hp])]
        have hp' : ftsKeep project rules r = true ∧ r.message_id = i := by
          simpa [lexPick] using hp
        rw [insertFts, hp'.1]
        rw [if_pos rfl]
        rw [scoreAt, lookupHit_upsert,
          if_pos (show (mkFtsHit rules r).id = i from hp'.2)]
        rfl

theorem updateSem_id (rules : List Project) (x : MergedHit) (it : SemItem) :
    (updateSem rules x it).id = x.id := rfl

theorem lookupHit_upsertSem (rules : List Project) (l : List MergedHit)
    (it : SemItem) (i : String) :
    lookupHit (upsertSem rules l it) i =
    if it.id = i then
      match lookupHit l i with
      | some x => some (updateSem rules x it)
      | none => some (mkSemHit rules it)
    else lookupHit l i := by
  induction l with
  | nil =>
    by_cases hid : it.id = i <;>
      simp [upsertSem, lookupHit, List.find?, mkSemHit, hid]
  | cons x xs ih =>
    by_cases hx : x.id = it.id
    · rw [upsertSem, if_pos hx]
      by_cases hid : it.id = i
      · have hxi : x.id = i := hx.trans hid
        simp [lookupHit, List.find?, hxi, updateSem_id, hid]
      · have hxi : ¬ x.id = i := by rw [hx]; exact hid
        simp [lookupHit, List.find?, hxi, updateSem_id, hid]
    · rw [upsertSem, if_neg hx]
      by_cases hxi : x.id = i
      · have hid : ¬ it.id = i := by
          intro hc
          exact hx (hxi.trans hc.symm)
        simp [lookupHit, List.find?, hxi, hid]
      · simp only [lookupHit, List.find?] at ih ⊢
        by_cases hid : it.id = i <;> simp [hxi, hid, ih]

theorem scoreAt_foldl_insertSem (project : Option String) (rules : List Project)
    (sems : List SemItem) (acc : List MergedHit) (i : String)
    (hfix : ∀ it ∈ sems, round4 it.score = it.score)
    (hacc : ∀ q, scoreAt acc i = some q → round4 q = q) :
    scoreAt (sems.foldl (insertSem project rules) acc) i =
    foldMaxOpt (scoreAt acc i) ((sems.filter (semPick project rules i)).map (fun it => it.score)) := by
  induction sems generalizing acc with
  | nil => simp [foldMaxOpt]
  | cons it rest ih =>
    have hfix' : ∀ x ∈ rest, round4 x.score = x.score :=
      fun x hx => hfix x (List.mem_cons_of_mem it hx)
    have hit_fix : round4 it.score = it.score := hfix it (List.mem_cons_self it rest)
    rw [List.foldl_cons, List.filter_cons]
    cases hkeep : semKeep project rules it
    · have hpick : semPick project rules i it = false := by
        simp [semPick, hkeep]
      rw [hpick]
      rw [if_neg (by simp)]
      have hstep : insertSem project rules acc it = acc := by
        rw [insertSem, hkeep]
        simp
      rw [hstep]
      exact ih acc hfix' hacc
    · by_cases hid : it.id = i
      · have hpick : semPick project rules i it = true := by
          simp [semPick, hkeep, hid]
        rw [hpick, if_pos rfl]
        have hstep : insertSem project rules acc it = upsertSem rules acc it := by
          rw [insertSem, hkeep]
          simp
        rw [hstep]
        cases hl : lookupHit acc i with
        | some x =>
          have hxfix : round4 x.score = x.score := hacc x.score (by rw [scoreAt, hl]; rfl)
          have hsc : scoreAt (upsertSem rules acc it) i = some (max x.score it.score) := by
            rw [scoreAt, lookupHit_upsertSem, if_pos hid, hl]
            show some ((updateSem rules x it).score) = _
            rw [show (updateSem rules x it).score = round4 (max x.score it.score) from rfl]
            rw [round4_max_fixed hxfix hit_fix]
          have hacc' : ∀ q, scoreAt (upsertSem rules acc it) i = some q → round4 q = q := by
            intro q hq
            rw [hsc] at hq
            have : q = max x.score it.score := by
              injection hq with h
              exact h.symm
            rw [this]
            exact round4_max_fixed hxfix hit_fix
          have haccv : scoreAt acc i = some x.score := by rw [scoreAt, hl]; rfl
          rw [ih _ hfix' hacc', hsc, haccv]
          rfl
        | none =>
          have hsc : scoreAt (upsertSem rules acc it) i = some it.score := by
            rw [scoreAt, lookupHit_upsertSem, if_pos hid, hl]
            rfl
          have hacc' : ∀ q, scoreAt (upsertSem rules acc it) i = some q → round4 q = q := by
            intro q hq
            rw [hsc] at hq
            have : q = it.score := by
              injection hq with h
              exact h.symm
            rw [this]
            exact hit_fix
          have haccv : scoreAt acc i = none := by rw [scoreAt, hl]; rfl
          rw [ih _ hfix' hacc', hsc, haccv]
          rfl
      · have hpick : semPick project rules i it = false := by
          simp [semPick, hid]
        rw [hpick, if_neg (by simp)]
        have hstep : scoreAt (insertSem project rules acc it) i = scoreAt acc i := by
          rw [insertSem]
          cases hkeep2 : semKeep project rules it
          · simp
          · rw [if_pos rfl]
            rw [scoreAt, lookupHit_upsertSem, if_neg hid]
            rfl
        have hacc' : ∀ q, scoreAt (insertSem project rules acc it) i = some q → round4 q = q := by
          intro q hq
          rw [hstep] at hq
          exact hacc q hq
        rw [ih _ hfix' hacc', hstep]

theorem ids_upsert (l : List MergedHit) (h : MergedHit) :
    (upsert l h).map (fun x => x.id) =
    if h.id ∈ l.map (fun x => x.id) then l.map (fun x => x.id)
    else l.map (fun x => x.id) ++ [h.id] := by
  induction l with
  | nil => simp [upsert]
  | cons x xs ih =>
    by_cases hx : x.id = h.id
    · rw [upsert, if_pos hx]
      simp [hx]
    · rw [upsert, if_neg hx]
      have hne : ¬ h.id = x.id := fun hc => hx hc.symm
      by_cases hmem : h.id ∈ xs.map (fun x => x.id)
      · simp [hmem, hne, ih]
      · simp [hmem, hne, ih]

theorem ids_upsertSem (rules : List Project) (l : List MergedHit) (it : SemItem) :
    (upsertSem rules l it).map (fun x => x.id) =
    if it.id ∈ l.map (fun x => x.id) then l.map (fun x => x.id)
    else l.map (fun x => x.id) ++ [it.id] := by
  induction l with
  | nil => simp [upsertSem, mkSemHit]
  | cons x xs ih =>
    by_cases hx : x.id = it.id
    · rw [upsertSem, if_pos hx]
      simp [hx, updateSem_id]
    · rw [upsertSem, if_neg hx]
      have hne : ¬ it.id = x.id := fun hc => hx hc.symm
      by_cases hmem : it.id ∈ xs.map (fun x => x.id)
      · simp [hmem, hne, ih]
      · simp [hmem, hne, ih]

theorem nodup_ids_upsert {l : List MergedHit} (h : MergedHit)
    (hnd : (l.map (fun x => x.id)).Nodup) : ((upsert l h).map (fun x => x.id)).Nodup := by
  rw [ids_upsert]
  by_cases hmem : h.id ∈ l.map (fun x => x.id)
  · rw [if_pos hmem]
    exact hnd
  · rw [if_neg hmem]
    rw [List.nodup_append]
    exact ⟨hnd, List.nodup_singleton _, by simpa using hmem⟩

theorem nodup_ids_upsertSem (rules : List Project) {l : List MergedHit} (it : SemItem)
    (hnd : (l.map (fun x => x.id)).Nodup) :
    ((upsertSem rules l it).map (fun x => x.id)).Nodup := by
  rw [ids_upsertSem]
  by_cases hmem : it.id ∈ l.map (fun x => x.id)
  · rw [if_pos hmem]
    exact hnd
  · rw [if_neg hmem]
    rw [List.nodup_append]
    exact ⟨hnd, List.nodup_singleton _, by simpa using hmem⟩

theorem nodup_ids_mergeDict (fts : List FtsRow) (sem : List SemItem)
    (project : Option String) (rules : List Project) :
    ((mergeDict fts sem project rules).map (fun x => x.id)).Nodup := by
  have step1 : ∀ (rows : List FtsRow) (acc : List MergedHit),
      (acc.map (fun x => x.id)).Nodup →
      ((rows.foldl (insertFts project rules) acc).map (fun x => x.id)).Nodup := by
    intro rows
    induction rows with
    | nil => intro acc h; exact h
    | cons r rest ih =>
      intro acc h
      rw [List.foldl_cons]
      apply ih
      rw [insertFts]
      cases hkeep : ftsKeep project rules r
      · simpa using h
      · rw [if_pos rfl]
        exact nodup_ids_upsert _ h
  have step2 : ∀ (sems : List SemItem) (acc : List MergedHit),
      (acc.map (fun x => x.id)).Nodup →
      ((sems.foldl (insertSem project rules) acc).map (fun x => x.id)).Nodup := by
    intro sems
    induction sems with
    | nil => intro acc h; exact h
    | cons it rest ih =>
      intro acc h
      rw [List.foldl_cons]
      apply ih
      rw [insertSem]
      cases hkeep : semKeep project rules it
      · simpa using h
      · rw [if_pos rfl]
        exact nodup_ids_upsertSem _ _ h
  exact step2 sem _ (step1 fts [] (by simp))

theorem lookup_of_mem {l : List MergedHit} {h : MergedHit}
    (hnd : (l.map (fun x => x.id)).Nodup) (hmem : h ∈ l) :
    lookupHit l h.id = some h := by
  induction l with
  | nil => cases hmem
  | cons x xs ih =>
    rcases List.mem_cons.mp hmem with heq | htail
    · rw [heq]
      simp [lookupHit, List.find?]
    · have hnd' : (xs.map (fun x => x.id)).Nodup := (List.nodup_cons.mp hnd).2
      have hhead : x.id ∉ xs.map (fun x => x.id) := by
        simpa using (List.nodup_cons.mp hnd).1
      have hne : ¬ x.id = h.id := by
        intro hc
        exact hhead (hc ▸ List.mem_map_of_mem (fun x => x.id) htail)
      rw [lookupHit, List.find?]
      rw [decide_eq_false hne]
      exact ih hnd' htail

theorem foldMaxOpt_some (a : ℚ) (ss : List ℚ) :
    foldMaxOpt (some a) ss = (a :: ss).max? := by
  induction ss generalizing a with
  | nil => rfl
  | cons s t ih =>
    rw [foldMaxOpt, ih (max a s)]
    rfl

theorem foldMaxOpt_none (ss : List ℚ) : foldMaxOpt none ss = ss.max? := by
  cases ss with
  | nil => rfl
  | cons s t =>
    rw [foldMaxOpt, foldMaxOpt_some]

/-- C1 (amended): every merged hit's score is exactly the maximum of the
normalized scores contributed by its sources, where the lexical
contribution is the FOUR-DECIMAL ROUNDING of `1/(1 + max 0 raw)` (of the
last surviving lexical row with that id) and a semantic contribution is
the item's (already rounded) score.  Provided the semantic scores are
4-decimal values in `[-1, 1]` — which rounded cosines are — every merged
score lies in `[-1, 1]`; it does NOT always lie in `[0, 1]`, since a
cosine similarity may be negative. -/
theorem merge_score_is_max_of_contribs (fts : List FtsRow) (sem : List SemItem)
    (project : Option String) (rules : List Project)
    (hfix : ∀ it ∈ sem, round4 it.score = it.score) :
    ∀ hit ∈ mergeResults fts sem project rules,
      (contribs fts sem project rules hit.id).max? = some hit.score ∧
      ((∀ it ∈ sem, -1 ≤ it.score ∧ it.score ≤ 1) →
        -1 ≤ hit.score ∧ hit.score ≤ 1) := by
  intro hit hmem
  have hmem' : hit ∈ mergeDict fts sem project rules := by
    rw [mergeResults] at hmem
    exact (List.perm_insertionSort hitLe _).mem_iff.mp hmem
  have hnd := nodup_ids_mergeDict fts sem project rules
  have hlk := lookup_of_mem hnd hmem'
  have hsc : scoreAt (mergeDict fts sem project rules) hit.id = some hit.score := by
    rw [scoreAt, hlk]
    rfl
  have hacc0 : ∀ q, scoreAt (fts.foldl (insertFts project rules) []) hit.id = some q →
      round4 q = q := by
    intro q hq
    rw [scoreAt_foldl_insertFts] at hq
    cases hlast : (fts.filter (lexPick project rules hit.id)).getLast? with
    | some r =>
      rw [hlast] at hq
      have : q = round4 (normalizeBm25 r.bm25) := by
        injection hq with h
        exact h.symm
      rw [this]
      exact round4_round4 _
    | none =>
      rw [hlast] at hq
      simp [scoreAt, lookupHit, List.find?] at hq
  have hphase : scoreAt (mergeDict fts sem project rules) hit.id =
      foldMaxOpt (scoreAt (fts.foldl (insertFts project rules) []) hit.id)
        ((sem.filter (semPick project rules hit.id)).map (fun it => it.score)) := by
    rw [mergeDict]
    exact scoreAt_foldl_insertSem project rules sem _ hit.id hfix hacc0
  have hcon : (contribs fts sem project rules hit.id).max? = some hit.score := by
    rw [← hsc, hphase, scoreAt_foldl_insertFts, contribs]
    cases hlast : (fts.filter (lexPick project rules hit.id)).getLast? with
    | some r =>
      rw [foldMaxOpt_some]
      rfl
    | none =>
      rw [show scoreAt ([] : List MergedHit) hit.id = none from rfl, foldMaxOpt_none]
      rfl
  refine ⟨hcon, ?_⟩
  intro hbnd
  have hmax_mem : hit.score ∈ contribs fts sem project rules hit.id :=
    List.max?_mem (fun a b => max_choice a b) hcon
  rw [contribs] at hmax_mem
  rcases List.mem_append.mp hmax_mem with hl | hr
  · rcases hopt : (fts.filter (lexPick project rules hit.id)).getLast? with _ | r
    · rw [hopt] at hl
      simp at hl
    · rw [hopt] at hl
      simp at hl
      rw [hl]
      have ha : ((-1 : ℤ) : ℚ) ≤ normalizeBm25 r.bm25 := by
        have := normalizeBm25_pos r.bm25
        push_cast
        linarith
      have hb : normalizeBm25 r.bm25 ≤ ((1 : ℤ) : ℚ) := by
        have := normalizeBm25_le_one r.bm25
        push_cast
        linarith
      have hbd := round4_bounds ha hb
      push_cast at hbd
      exact hbd
  · obtain ⟨it, hit_mem, hscore⟩ := List.mem_map.mp hr
    have hfil := List.mem_filter.mp hit_mem
    have hb2 := hbnd it hfil.1
    rw [← hscore]
    exact hb2

/-- C1 counterexample: a semantic hit with cosine similarity `-1`
(realizable: `cosine [1] [-1] = -1`) yields a MergedHit whose score is
`-1`, which does not lie in `[0, 1]`.  This falsifies the claim that
every MergedHit score lies in `[0, 1]`. -/
theorem merge_score_range_counterexample :
    ((mergeResults [] negSem none []).map (fun h => h.score)) = [-1] ∧
    ¬ ((0:ℚ) ≤ -1) ∧
    cosine [1] [-1] = -1 := by
  refine ⟨?_, by norm_num, ?_⟩
  · have hdict : mergeDict [] negSem none [] = [negHit] := by
      simp [mergeDict, negSem, negItem, insertSem, semKeep, upsertSem, mkSemHit,
        detectProjects, negHit]
    rw [mergeResults, hdict]
    unfold List.insertionSort List.insertionSort
    rw [List.orderedInsert_nil]
    simp [negHit]
  · have hna : naZ [1] [-1] = 1 := by norm_num [naZ]
    have hnb : nbZ [1] [-1] = 1 := by norm_num [nbZ]
    have hdot : dotZ [1] [-1] = -1 := by norm_num [dotZ]
    rw [cosine, if_neg (by rw [hna, hnb]; norm_num)]
    rw [hna, hnb, hdot]
    push_cast
    rw [Real.sqrt_one]
    norm_num

/-- Witness for C1 (amended) at a concrete one-row, one-item input. -/
theorem merge_score_is_max_of_contribs_witness :
    (∀ it ∈ w1sem, round4 it.score = it.score) ∧
    ((contribs w1fts w1sem none [] "m1").max? = some w1hit.score ∧
     (-1 ≤ w1hit.score ∧ w1hit.score ≤ 1)) := by
  have hfix : ∀ it ∈ w1sem, round4 it.score = it.score := by
    intro it hmem
    rw [w1sem, List.mem_singleton] at hmem
    rw [hmem, show w1item.score = 9/10 from rfl, round4_nine_tenths]
  have hbnd : ∀ it ∈ w1sem, -1 ≤ it.score ∧ it.score ≤ 1 := by
    intro it hmem
    rw [w1sem, List.mem_singleton] at hmem
    rw [hmem, show w1item.score = 9/10 from rfl]
    constructor <;> norm_num
  have h1 : round4 (normalizeBm25 0) = 1 := by
    rw [normalizeBm25, show max (0:ℚ) 0 = 0 from max_self 0,
      show (1:ℚ)/(1 + 0) = 1 by norm_num, round4_one]
  have h3 : round4 (max (1:ℚ) (9/10)) = 1 := by
    rw [show max (1:ℚ) (9/10) = 1 from max_eq_left (by norm_num), round4_one]
  have hlen : ("t".length ≤ "sn".length) := by decide
  have hdict : mergeDict w1fts w1sem none [] = [w1hit] := by
    simp [mergeDict, w1fts, w1sem, w1row, w1item, insertFts, insertSem, ftsKeep,
      semKeep, upsert, upsertSem, mkFtsHit, mkSemHit, updateSem, detectProjects,
      h1, h3, hlen, w1hit]
  have hmem : w1hit ∈ mergeResults w1fts w1sem none [] := by
    have heval : mergeResults w1fts w1sem none [] = [w1hit] := by
      rw [mergeResults, hdict]
      unfold List.insertionSort List.insertionSort
      rw [List.orderedInsert_nil]
    rw [heval]
    exact List.mem_singleton.mpr rfl
  have h := merge_score_is_max_of_contribs w1fts w1sem none [] hfix w1hit hmem
  rw [show w1hit.id = "m1" from rfl] at h
  exact ⟨hfix, h.1, h.2 hbnd⟩

theorem lookupB_addToBucket_same (k : String) (x : MergedHit)
    (l : List (String × List MergedHit)) :
    (addToBucket k x l).find? (fun p => decide (p.1 = k)) =
    match l.find? (fun p => decide (p.1 = k)) with
    | some p => some (p.1, p.2 ++ [x])
    | none => some (k, [x]) := by
  induction l with
  | nil => simp [addToBucket, List.find?]
  | cons p ps ih =>
    by_cases hp : p.1 = k
    · rw [addToBucket, if_pos hp]
      simp [List.find?, hp]
    · rw [addToBucket, if_neg hp]
      rw [List.find?, decide_eq_false hp]
      rw [List.find?, decide_eq_false hp]
      exact ih

theorem lookupB_addToBucket_other {k' k : String} (x : MergedHit)
    (l : List (String × List MergedHit)) (hne : ¬ k' = k) :
    (addToBucket k' x l).find? (fun p => decide (p.1 = k)) =
    l.find? (fun p => decide (p.1 = k)) := by
  induction l with
  | nil => simp [addToBucket, List.find?, hne]
  | cons p ps ih =>
    by_cases hp : p.1 = k'
    · rw [addToBucket, if_pos hp]
      have hpk : ¬ p.1 = k := by rw [hp]; exact hne
      rw [List.find?, decide_eq_false hpk]
      rw [List.find?, decide_eq_false hpk]
    · rw [addToBucket, if_neg hp]
      by_cases hpk : p.1 = k
      · rw [List.find?, decide_eq_true hpk]
        rw [List.find?, decide_eq_true hpk]
      · rw [List.find?, decide_eq_false hpk]
        rw [List.find?, decide_eq_false hpk]
        exact ih

theorem bucket_foldl_lookup (items : List MergedHit)
    (acc : List (String × List MergedHit)) (k : String) :
    (items.foldl (fun a x => addToBucket (bucketKey x) x a) acc).find?
        (fun p => decide (p.1 = k)) =
    match acc.find? (fun p => decide (p.1 = k)),
        items.filter (fun y => decide (bucketKey y = k)) with
    | some p, l => some (p.1, p.2 ++ l)
    | none, [] => none
    | none, l => some (k, l) := by
  induction items generalizing acc with
  | nil =>
    cases h : acc.find? (fun p => decide (p.1 = k)) with
    | some p =>
      simp only [List.foldl_nil, List.filter_nil, h]
      cases p
      simp
    | none => simp [h]
  | cons x xs ih =>
    rw [List.foldl_cons, List.filter_cons]
    by_cases hk : bucketKey x = k
    · rw [decide_eq_true hk]
      rw [ih (addToBucket (bucketKey x) x acc)]
      rw [show bucketKey x = k from hk]
      rw [lookupB_addToBucket_same]
      cases hacc : acc.find? (fun p => decide (p.1 = k)) with
      | some p =>
        simp
      | none =>
        simp
    · rw [decide_eq_false hk]
      rw [ih (addToBucket (bucketKey x) x acc)]
      rw [lookupB_addToBucket_other x acc hk]
      simp

theorem keys_addToBucket (k : String) (x : MergedHit)
    (l : List (String × List MergedHit)) :
    (addToBucket k x l).map Prod.fst =
    if k ∈ l.map Prod.fst then l.map Prod.fst else l.map Prod.fst ++ [k] := by
  induction l with
  | nil => simp [addToBucket]
  | cons p ps ih =>
    by_cases hp : p.1 = k
    · rw [addToBucket, if_pos hp]
      simp [hp]
    · rw [addToBucket, if_neg hp]
      have hne : ¬ k = p.1 := fun hc => hp hc.symm
      by_cases hmem : k ∈ ps.map Prod.fst
      · simp [hmem, hne, ih]
      · simp [hmem, hne, ih]

theorem nodup_keys_buckets (items : List MergedHit) :
    ((buckets items).map Prod.fst).Nodup := by
  have aux : ∀ (its : List MergedHit) (acc : List (String × List MergedHit)),
      (acc.map Prod.fst).Nodup →
      (((its.foldl (fun a x => addToBucket (bucketKey x) x a) acc)).map Prod.fst).Nodup := by
    intro its
    induction its with
    | nil => intro acc h; exact h
    | cons x xs ih =>
      intro acc h
      rw [List.foldl_cons]
      apply ih
      rw [keys_addToBucket]
      by_cases hmem : bucketKey x ∈ acc.map Prod.fst
      · rw [if_pos hmem]
        exact h
      · rw [if_neg hmem]
        rw [List.nodup_append]
        exact ⟨h, List.nodup_singleton _, by simpa using hmem⟩
  exact aux items [] (by simp)

theorem lookupB_of_mem {l : List (String × List MergedHit)}
    {p : String × List MergedHit}
    (hnd : (l.map Prod.fst).Nodup) (hmem : p ∈ l) :
    l.find? (fun q => decide (q.1 = p.1)) = some p := by
  induction l with
  | nil => cases hmem
  | cons x xs ih =>
    rcases List.mem_cons.mp hmem with heq | htail
    · rw [heq]
      simp [List.find?]
    · have hnd' : (xs.map Prod.fst).Nodup := (List.nodup_cons.mp hnd).2
      have hhead : x.1 ∉ xs.map Prod.fst := by
        simpa using (List.nodup_cons.mp hnd).1
      have hne : ¬ x.1 = p.1 := by
        intro hc
        exact hhead (hc ▸ List.mem_map_of_mem Prod.fst htail)
      rw [List.find?, decide_eq_false hne]
      exact ih hnd' htail

theorem bucket_eq_filter {items : List MergedHit} {p : String × List MergedHit}
    (hp : p ∈ buckets items) :
    p.2 = items.filter (fun y => decide (bucketKey y = p.1)) ∧ p.2 ≠ [] := by
  have h1 := lookupB_of_mem (nodup_keys_buckets items) hp
  have h2 := bucket_foldl_lookup items [] p.1
  rw [buckets] at h1
  rw [h1] at h2
  rw [show (([] : List (String × List MergedHit)).find? (fun q => decide (q.1 = p.1))) = none
    from rfl] at h2
  cases hfil : items.filter (fun y => decide (bucketKey y = p.1)) with
  | nil =>
    rw [hfil] at h2
    simp at h2
  | cons a l =>
    rw [hfil] at h2
    have hpe : p = (p.1, a :: l) := by
      injection h2 with h
    have hp2 : p.2 = a :: l := congrArg Prod.snd hpe
    exact ⟨hp2, by rw [hp2]; simp⟩

theorem mem_of_mem_group (items : List MergedHit) (convos per : ℕ) :
    ∀ g ∈ groupByConversation items convos per, ∀ h ∈ g.hits,
      h ∈ items ∧ bucketKey h = g.conversation_id := by
  intro g hg h hh
  rw [groupByConversation] at hg
  obtain ⟨p, hp_take, hgp⟩ := List.mem_map.mp hg
  have hp_ranked : p ∈ List.insertionSort bucketLe (buckets items) :=
    List.mem_of_mem_take hp_take
  have hp_buckets : p ∈ buckets items :=
    (List.perm_insertionSort bucketLe _).mem_iff.mp hp_ranked
  have hfil := (bucket_eq_filter hp_buckets).1
  have hh' : h ∈ p.2 := by
    rw [← hgp] at hh
    have h1 : h ∈ List.insertionSort hitScoreLe p.2 := List.mem_of_mem_take hh
    exact (List.perm_insertionSort hitScoreLe _).mem_iff.mp h1
  rw [hfil] at hh'
  have := List.mem_filter.mp hh'
  refine ⟨this.1, ?_⟩
  have hbk := of_decide_eq_true this.2
  rw [← hgp]
  exact hbk

/-- C7: `_group_by_conversation` buckets hits by conversation id (with
absent or empty ids in the reserved `unknown` bucket), keeps at most
`convos` buckets ranked by their best (maximum) score descending, and
within each kept bucket keeps at most `per` hits ordered by score
descending. -/
theorem group_by_conversation_spec (items : List MergedHit) (convos per : ℕ) :
    (groupByConversation items convos per).length ≤ convos ∧
    (∀ g ∈ groupByConversation items convos per,
      g.hits.length ≤ per ∧
      List.Chain' (fun a b => b.score ≤ a.score) g.hits ∧
      ∀ h ∈ g.hits, h ∈ items ∧ bucketKey h = g.conversation_id) ∧
    List.Chain'
      (fun g1 g2 => maxScoreIn items g2.conversation_id ≤ maxScoreIn items g1.conversation_id)
      (groupByConversation items convos per) := by
  refine ⟨?_, ?_, ?_⟩
  · rw [groupByConversation, List.length_map]
    exact List.length_take_le _ _
  · intro g hg
    refine ⟨?_, ?_, mem_of_mem_group items convos per g hg⟩
    · rw [groupByConversation] at hg
      obtain ⟨p, _, hgp⟩ := List.mem_map.mp hg
      rw [← hgp]
      exact List.length_take_le _ _
    · rw [groupByConversation] at hg
      obtain ⟨p, _, hgp⟩ := List.mem_map.mp hg
      rw [← hgp]
      have hs : List.Pairwise hitScoreLe (List.insertionSort hitScoreLe p.2) :=
        List.sorted_insertionSort hitScoreLe p.2
      have hp' : List.Pairwise hitScoreLe ((List.insertionSort hitScoreLe p.2).take per) :=
        List.Pairwise.sublist (List.take_sublist per _) hs
      exact List.Pairwise.chain' hp'
  · rw [groupByConversation]
    have hs : List.Pairwise bucketLe (List.insertionSort bucketLe (buckets items)) :=
      List.sorted_insertionSort bucketLe (buckets items)
    have ht : List.Pairwise bucketLe ((List.insertionSort bucketLe (buckets items)).take convos) :=
      List.Pairwise.sublist (List.take_sublist convos _) hs
    have hmax : ∀ p ∈ (List.insertionSort bucketLe (buckets items)).take convos,
        maxScoreIn items p.1 = bestScore p.2 := by
      intro p hp
      have hp_buckets : p ∈ buckets items :=
        (List.perm_insertionSort bucketLe _).mem_iff.mp (List.mem_of_mem_take hp)
      rw [maxScoreIn, ← (bucket_eq_filter hp_buckets).1]
    have himp : List.Pairwise
        (fun p q : String × List MergedHit =>
          maxScoreIn items q.1 ≤ maxScoreIn items p.1)
        ((List.insertionSort bucketLe (buckets items)).take convos) := by
      apply List.Pairwise.imp_of_mem ?_ ht
      intro p q hp hq hle
      rw [hmax p hp, hmax q hq]
      exact hle
    exact List.Pairwise.chain' (List.Pairwise.map _ (fun a b h => h) himp)

/-- C10: when grouping, `main` passes only the first
`max(top, convos * per_convo)` merged hits to the grouper, so a merged
hit ranked below that cutoff never appears in any conversation group. -/
theorem main_grouped_cutoff (merged : List MergedHit) (top convos per : ℕ) :
    ∀ g ∈ mainGrouped merged top convos per, ∀ h ∈ g.hits,
      h ∈ merged.take (max top (convos * per)) := by
  intro g hg h hh
  exact (mem_of_mem_group (merged.take (max top (convos * per))) convos per g hg h hh).1

/-- Witness for C7 at a concrete single-hit input. -/
theorem group_by_conversation_spec_witness :
    ((⟨"c1", [w7hit]⟩ : ConversationGroup) ∈ groupByConversation [w7hit] 1 1) ∧
    ((⟨"c1", [w7hit]⟩ : ConversationGroup).hits.length ≤ 1 ∧
     w7hit ∈ [w7hit] ∧ bucketKey w7hit = "c1") :=
  have hg : (⟨"c1", [w7hit]⟩ : ConversationGroup) ∈ groupByConversation [w7hit] 1 1 := by
    decide
  ⟨hg, ((group_by_conversation_spec [w7hit] 1 1).2.1 _ hg).1,
    ((group_by_conversation_spec [w7hit] 1 1).2.1 _ hg).2.2 w7hit (by decide)⟩

/-- Witness for C10 at a concrete single-hit input. -/
theorem main_grouped_cutoff_witness :
    ((⟨"c1", [w7hit]⟩ : ConversationGroup) ∈ mainGrouped [w7hit] 1 1 1) ∧
    (w7hit ∈ (⟨"c1", [w7hit]⟩ : ConversationGroup).hits) ∧
    w7hit ∈ [w7hit].take (max 1 (1 * 1)) :=
  have hg : (⟨"c1", [w7hit]⟩ : ConversationGroup) ∈ mainGrouped [w7hit] 1 1 1 := by decide
  ⟨hg, by decide, main_grouped_cutoff [w7hit] 1 1 1 _ hg w7hit (by decide)⟩

theorem truncate700_spec (s : String) (h : 700 < s.data.length) :
    (truncate700 s).data = s.data.take 700 ++ ['…'] ∧ (truncate700 s).data.length = 701 := by
  rw [truncate700, if_pos h]
  refine ⟨rfl, ?_⟩
  show (s.data.take 700 ++ ['…']).length = 701
  rw [List.length_append, List.length_take]
  rw [show (700 : ℕ) ⊓ s.data.length = 700 from Nat.min_eq_left (Nat.le_of_lt h)]
  rfl

theorem mem_upsert {l : List MergedHit} {h x : MergedHit}
    (hx : x ∈ upsert l h) : x = h ∨ x ∈ l := by
  induction l with
  | nil =>
    rw [upsert] at hx
    simp at hx
    exact Or.inl hx
  | cons y ys ih =>
    by_cases hy : y.id = h.id
    · rw [upsert, if_pos hy] at hx
      rcases List.mem_cons.mp hx with he | ht
      · exact Or.inl he
      · exact Or.inr (List.mem_cons_of_mem y ht)
    · rw [upsert, if_neg hy] at hx
      rcases List.mem_cons.mp hx with he | ht
      · exact Or.inr (he ▸ List.mem_cons_self y ys)
      · rcases ih ht with h1 | h1
        · exact Or.inl h1
        · exact Or.inr (List.mem_cons_of_mem y h1)

theorem mem_upsertSem {rules : List Project} {l : List MergedHit} {it : SemItem}
    {x : MergedHit} (hx : x ∈ upsertSem rules l it) :
    x = mkSemHit rules it ∨ (∃ y ∈ l, x = updateSem rules y it) ∨ x ∈ l := by
  induction l with
  | nil =>
    rw [upsertSem] at hx
    simp at hx
    exact Or.inl hx
  | cons y ys ih =>
    by_cases hy : y.id = it.id
    · rw [upsertSem, if_pos hy] at hx
      rcases List.mem_cons.mp hx with he | ht
      · exact Or.inr (Or.inl ⟨y, List.mem_cons_self y ys, he⟩)
      · exact Or.inr (Or.inr (List.mem_cons_of_mem y ht))
    · rw [upsertSem, if_neg hy] at hx
      rcases List.mem_cons.mp hx with he | ht
      · exact Or.inr (Or.inr (he ▸ List.mem_cons_self y ys))
      · rcases ih ht with h1 | h1 | h1
        · exact Or.inl h1
        · obtain ⟨z, hz, hxz⟩ := h1
          exact Or.inr (Or.inl ⟨z, List.mem_cons_of_mem y hz, hxz⟩)
        · exact Or.inr (Or.inr (List.mem_cons_of_mem y h1))

theorem updateSem_preview (rules : List Project) (x : MergedHit) (it : SemItem) :
    (updateSem rules x it).preview = it.text ∨ (updateSem rules x it).preview = x.preview := by
  rw [updateSem]
  by_cases h : x.preview.length < it.text.length
  · exact Or.inl (by simp [h])
  · exact Or.inr (by simp [h])

theorem preview_mem_mergeDict (fts : List FtsRow) (sem : List SemItem)
    (project : Option String) (rules : List Project) :
    ∀ hit ∈ mergeDict fts sem project rules,
      (∃ r ∈ fts, hit.preview = r.snip) ∨ (∃ it ∈ sem, hit.preview = it.text) := by
  have aux1 : ∀ (rows : List FtsRow), (∀ r ∈ rows, r ∈ fts) →
      ∀ (acc : List MergedHit),
      (∀ h ∈ acc, (∃ r ∈ fts, h.preview = r.snip) ∨ (∃ it ∈ sem, h.preview = it.text)) →
      ∀ h ∈ rows.foldl (insertFts project rules) acc,
        (∃ r ∈ fts, h.preview = r.snip) ∨ (∃ it ∈ sem, h.preview = it.text) := by
    intro rows
    induction rows with
    | nil => intro _ acc hacc h hh; exact hacc h hh
    | cons r rest ih =>
      intro hsub acc hacc
      rw [List.foldl_cons]
      apply ih (fun z hz => hsub z (List.mem_cons_of_mem r hz))
      intro h hh
      rw [insertFts] at hh
      cases hkeep : ftsKeep project rules r
      · rw [hkeep] at hh
        simp at hh
        exact hacc h hh
      · rw [hkeep] at hh
        simp only [if_pos] at hh
        rcases mem_upsert hh with he | hmem
        · exact Or.inl ⟨r, hsub r (List.mem_cons_self r rest),
            by rw [he]; rfl⟩
        · exact hacc h hmem
  have aux2 : ∀ (sems : List SemItem), (∀ s ∈ sems, s ∈ sem) →
      ∀ (acc : List MergedHit),
      (∀ h ∈ acc, (∃ r ∈ fts, h.preview = r.snip) ∨ (∃ it ∈ sem, h.preview = it.text)) →
      ∀ h ∈ sems.foldl (insertSem project rules) acc,
        (∃ r ∈ fts, h.preview = r.snip) ∨ (∃ it ∈ sem, h.preview = it.text) := by
    intro sems
    induction sems with
    | nil => intro _ acc hacc h hh; exact hacc h hh
    | cons s rest ih =>
      intro hsub acc hacc
      rw [List.foldl_cons]
      apply ih (fun z hz => hsub z (List.mem_cons_of_mem s hz))
      intro h hh
      rw [insertSem] at hh
      cases hkeep : semKeep project rules s
      · rw [hkeep] at hh
        simp at hh
        exact hacc h hh
      · rw [hkeep] at hh
        simp only [if_pos] at hh
        rcases mem_upsertSem hh with he | ⟨y, hy, hxy⟩ | hmem
        · exact Or.inr ⟨s, hsub s (List.mem_cons_self s rest), by rw [he]; rfl⟩
        · rcases updateSem_preview rules y s with hp | hp
          · exact Or.inr ⟨s, hsub s (List.mem_cons_self s rest), by rw [hxy]; exact hp⟩
          · rcases hacc y hy with hl | hr
            · obtain ⟨r, hr1, hr2⟩ := hl
              exact Or.inl ⟨r, hr1, by rw [hxy]; rw [hp]; exact hr2⟩
            · obtain ⟨z, hz1, hz2⟩ := hr
              exact Or.inr ⟨z, hz1, by rw [hxy]; rw [hp]; exact hz2⟩
        · exact hacc h hmem
  intro hit hmem
  exact aux2 sem (fun _ hz => hz) _
    (aux1 fts (fun _ hz => hz) [] (by intro h hh; cases hh)) hit hmem

/-- C8: for every document the semantic search returns, the emitted text
is the stored text truncated at 700 characters — when the stored text is
longer than 700 characters the emitted text is its first 700 characters
followed by one ellipsis character, total length 701 — and every preview
in the merged output comes either from a lexical snippet or from one of
these (truncated) semantic texts, never from a full stored text. -/
theorem semantic_truncation_and_preview (resp : Option (List ℚ)) (docs : List SemDoc)
    (role : Option String) (since untl : Option ℚ) (top minLen : ℕ)
    (fts : List FtsRow) (project : Option String) (rules : List Project)
    (out : List SemItem)
    (hout : semanticSearch resp docs role since untl top minLen = Except.ok out) :
    (∀ it ∈ out, ∃ d ∈ docs, it.text = truncate700 d.text ∧
      (700 < d.text.data.length →
        it.text.data = d.text.data.take 700 ++ ['…'] ∧ it.text.data.length = 701)) ∧
    (∀ hit ∈ mergeResults fts out project rules,
      (∃ r ∈ fts, hit.preview = r.snip) ∨ (∃ it ∈ out, hit.preview = it.text)) := by
  constructor
  · intro it hit_mem
    cases hemb : ollamaEmbed resp with
    | error e =>
      rw [semanticSearch, hemb] at hout
      cases hout
    | ok qv =>
      rw [semanticSearch, hemb] at hout
      have hout' : ((@List.insertionSort (ℝ × SemDoc) (fun x y => y.1 ≤ x.1)
          (fun _ _ => Classical.dec _)
          (docs.filterMap (fun d =>
            if d.text = "" ∨ d.text.data.length < minLen then none
            else if semAdmits role since untl d.author_role d.created_at then
              some (cosine qv d.vec, d)
            else none))).take top).map (fun sd =>
          { score := round4R sd.1
            id := sd.2.id
            conversation_id := sd.2.conversation_id
            author_role := sd.2.author_role
            created_at := sd.2.created_at
            text := truncate700 sd.2.text : SemItem }) = out := by
        injection hout
      rw [← hout'] at hit_mem
      obtain ⟨sd, hsd_take, hsd_it⟩ := List.mem_map.mp hit_mem
      have hsd_sort := List.mem_of_mem_take hsd_take
      have hsd_scored := (List.perm_insertionSort _ _).mem_iff.mp hsd_sort
      obtain ⟨d, hd_docs, hd_eq⟩ := List.mem_filterMap.mp hsd_scored
      have htext : it.text = truncate700 d.text := by
        by_cases h1 : d.text = "" ∨ d.text.data.length < minLen
        · rw [if_pos h1] at hd_eq
          cases hd_eq
        · rw [if_neg h1] at hd_eq
          by_cases h2 : semAdmits role since untl d.author_role d.created_at = true
          · rw [if_pos h2] at hd_eq
            have h3 : (cosine qv d.vec, d) = sd := Option.some.inj hd_eq
            rw [← hsd_it, ← h3]
          · rw [if_neg h2] at hd_eq
            cases hd_eq
      refine ⟨d, hd_docs, htext, ?_⟩
      intro hlong
      rw [htext]
      exact truncate700_spec d.text hlong
  · intro hit hmem
    have hmem' : hit ∈ mergeDict fts out project rules := by
      rw [mergeResults] at hmem
      exact (List.perm_insertionSort hitLe _).mem_iff.mp hmem
    exact preview_mem_mergeDict fts out project rules hit hmem'

/-- Witness for C8 at a concrete (empty) document store. -/
theorem semantic_truncation_and_preview_witness :
    (semanticSearch (some [1]) [] none none none 5 120 = Except.ok []) ∧
    ((∀ it ∈ ([] : List SemItem), ∃ d ∈ ([] : List SemDoc), it.text = truncate700 d.text ∧
      (700 < d.text.data.length →
        it.text.data = d.text.data.take 700 ++ ['…'] ∧ it.text.data.length = 701)) ∧
    (∀ hit ∈ mergeResults [] ([] : List SemItem) none [],
      (∃ r ∈ ([] : List FtsRow), hit.preview = r.snip) ∨
      (∃ it ∈ ([] : List SemItem), hit.preview = it.text))) :=
  ⟨rfl, semantic_truncation_and_preview (some [1]) [] none none none 5 120 [] none [] [] rfl⟩

/-- Witness for C2 (amended): the invariant instantiated at a concrete
input. -/
theorem merge_order_invariant_witness :
    List.Chain' (fun a b => b.score ≤ a.score ∧ (a.score = b.score → tsKey b ≤ tsKey a))
      (mergeResults [] c2sem none []) ∧
    ∀ k : ℚ × ℚ,
      (mergeResults [] c2sem none []).filter (fun x => decide (sortKey x = k)) =
      (mergeDict [] c2sem none []).filter (fun x => decide (sortKey x = k)) :=
  merge_order_invariant [] c2sem none []
